import Mathlib

/-!
Verification of the cadence-normalization and aggregation core of the
Flow Ledger personal finance tracker (`src/App.tsx`).

The embedding models the TypeScript data model and state-updating handlers
as pure Lean functions:

* JavaScript numbers are modelled as rationals (`ℚ`); the claims under
  study are about the exact arithmetic structure of the computations.
* Transaction ids are opaque strings produced by `generateId`; freshness is
  the only property the code relies on, so ids are modelled as naturals
  handed out by a counter carried in the application state.
* The `date` / `createdAt` fields are date strings that the code only ever
  consumes through `getTransactionTimestamp` (parse `date`, else parse
  `createdAt`, else `0`); they are modelled as optional integer timestamps
  (`none` = absent or unparseable).
* `Array.prototype.sort` with comparator `(a, b) => ts(b) - ts(a)` is a
  stable sort by descending timestamp; it is embedded as `insertionSort`
  over the corresponding total preorder, which is extensionally the same
  stable sort.
-/

namespace FlowLedger

/-- The `TransactionCadence` union type of `types.ts`. -/
inductive TransactionCadence where
  | Weekly
  | BiWeekly
  | Monthly
  | Quarterly
  | Annual
  | OneTime
deriving DecidableEq

/-- The `TransactionFlow` union type of `types.ts`. -/
inductive TransactionFlow where
  | Expense
  | Income
  | Savings
deriving DecidableEq

/-- The `CategoryKey` union type of `types.ts`: the six fixed category ids. -/
inductive CategoryKey where
  | income
  | financialObligations
  | lifestyleRecurring
  | personalFamily
  | savingsInvestments
  | miscellaneous
deriving DecidableEq

/-- The `Transaction` interface of `types.ts`. -/
structure Transaction where
  id : Nat
  label : String
  amount : ℚ
  cadence : TransactionCadence
  flow : TransactionFlow
  date : Option Int
  note : String
  createdAt : Option Int
deriving DecidableEq

/-- The `Category` interface of `types.ts`. -/
structure Category where
  id : CategoryKey
  name : String
  accent : String
  description : String
  transactions : List Transaction
deriving DecidableEq

/-- The `cadenceToMonthlyFactor` record of `App.tsx`. -/
def cadenceToMonthlyFactor : TransactionCadence → ℚ
  | .Weekly => 4
  | .BiWeekly => 2
  | .Monthly => 1
  | .Quarterly => 1 / 3
  | .Annual => 1 / 12
  | .OneTime => 1 / 12

/-- The expression `transaction.amount * cadenceToMonthlyFactor[transaction.cadence]`
used by `categoryMonthlyTotals` and `summary` in `App.tsx` (the spec's
`normalize(amount, cadence)`). -/
def normalize (amount : ℚ) (cadence : TransactionCadence) : ℚ :=
  amount * cadenceToMonthlyFactor cadence

/-- `getTransactionTimestamp` of `App.tsx`: the parsed `date` when present,
else the parsed `createdAt`, else `0`. -/
def getTransactionTimestamp (t : Transaction) : Int :=
  match t.date with
  | some ts => ts
  | none =>
    match t.createdAt with
    | some ts => ts
    | none => 0

/-- The ordering used by `sortTransactionsByRecency`'s comparator
`(a, b) => getTransactionTimestamp(b) - getTransactionTimestamp(a)`:
`a` sorts no later than `b` when `a`'s timestamp is no smaller. -/
def recencyLE (a b : Transaction) : Prop :=
  getTransactionTimestamp b ≤ getTransactionTimestamp a

instance : DecidableRel recencyLE := fun a b =>
  inferInstanceAs (Decidable (getTransactionTimestamp b ≤ getTransactionTimestamp a))

instance : IsTotal Transaction recencyLE :=
  ⟨fun a b => Int.le_total (getTransactionTimestamp b) (getTransactionTimestamp a)⟩

instance : IsTrans Transaction recencyLE :=
  ⟨fun _ _ _ h1 h2 => le_trans h2 h1⟩

/-- `sortTransactionsByRecency` of `App.tsx`: a stable sort by descending
timestamp. -/
def sortTransactionsByRecency (ts : List Transaction) : List Transaction :=
  List.insertionSort recencyLE ts

theorem sortTransactionsByRecency_perm (ts : List Transaction) :
    (sortTransactionsByRecency ts).Perm ts :=
  List.perm_insertionSort recencyLE ts

theorem mem_sortTransactionsByRecency {ts : List Transaction} {t : Transaction} :
    t ∈ sortTransactionsByRecency ts ↔ t ∈ ts :=
  List.mem_insertionSort recencyLE

theorem length_sortTransactionsByRecency (ts : List Transaction) :
    (sortTransactionsByRecency ts).length = ts.length :=
  List.length_insertionSort recencyLE ts

theorem sorted_sortTransactionsByRecency (ts : List Transaction) :
    List.Sorted recencyLE (sortTransactionsByRecency ts) :=
  List.sorted_insertionSort recencyLE ts

theorem sortTransactionsByRecency_of_sorted {ts : List Transaction}
    (h : List.Sorted recencyLE ts) : sortTransactionsByRecency ts = ts :=
  h.insertionSort_eq

/-- C1: for every amount and every cadence in the closed six-element enum, the
cadence normalizer multiplies the amount by the fixed factor table
Weekly×4, Bi-weekly×2, Monthly×1, Quarterly×1/3, Annual×1/12, One-time×1/12.
`normalize` is a total function on the enum, so there is no error case. -/
theorem normalize_cadence_table (amount : ℚ) :
    normalize amount .Weekly = amount * 4 ∧
    normalize amount .BiWeekly = amount * 2 ∧
    normalize amount .Monthly = amount * 1 ∧
    normalize amount .Quarterly = amount * (1 / 3) ∧
    normalize amount .Annual = amount * (1 / 12) ∧
    normalize amount .OneTime = amount * (1 / 12) :=
  ⟨rfl, rfl, rfl, rfl, rfl, rfl⟩

/-- The per-transaction reduction step of `categoryMonthlyTotals` in `App.tsx`:
Income subtracts the normalized amount, everything else adds it. -/
def categoryTotalStep (sum : ℚ) (t : Transaction) : ℚ :=
  if t.flow = TransactionFlow.Income then sum - normalize t.amount t.cadence
  else sum + normalize t.amount t.cadence

/-- The `reduce` computing one category's signed monthly total in
`categoryMonthlyTotals` (`App.tsx`). -/
def categoryMonthlyTotal (c : Category) : ℚ :=
  c.transactions.foldl categoryTotalStep 0

/-- `categoryMonthlyTotals` of `App.tsx`: a record, keyed by `CategoryKey` and
initialized to all zeros, whose entry for each listed category's id is
assigned that category's signed monthly total. -/
def categoryMonthlyTotals (categories : List Category) : CategoryKey → ℚ :=
  categories.foldl
    (fun totals c => fun k => if k = c.id then categoryMonthlyTotal c else totals k)
    (fun _ => 0)

/-- The mutable accumulators of the `summary` memo in `App.tsx`. -/
structure SummaryAcc where
  monthlyCommitments : ℚ
  monthlySavings : ℚ
  monthlyIncome : ℚ
  totalTransactions : Nat
deriving DecidableEq

/-- The body of the inner `forEach` of the `summary` memo in `App.tsx`. -/
def summaryStep (acc : SummaryAcc) (t : Transaction) : SummaryAcc :=
  let normalized := normalize t.amount t.cadence
  let acc1 := { acc with totalTransactions := acc.totalTransactions + 1 }
  if t.flow = TransactionFlow.Income then
    { acc1 with monthlyIncome := acc1.monthlyIncome + normalized }
  else if t.flow = TransactionFlow.Savings then
    { acc1 with
      monthlySavings := acc1.monthlySavings + normalized
      monthlyCommitments := acc1.monthlyCommitments + normalized }
  else
    { acc1 with monthlyCommitments := acc1.monthlyCommitments + normalized }

/-- The nested `forEach` loops of the `summary` memo in `App.tsx`. -/
def summaryOfCategories (categories : List Category) : SummaryAcc :=
  categories.foldl (fun acc c => c.transactions.foldl summaryStep acc)
    { monthlyCommitments := 0, monthlySavings := 0, monthlyIncome := 0, totalTransactions := 0 }

/-- The `{ name, total }` accumulator of the `topCategory` reduce in `App.tsx`. -/
structure TopCategory where
  name : String
  total : ℚ
deriving DecidableEq

/-- The reducer of the `topCategory` computation in `App.tsx`: replace the
accumulator only when the category's memoized total is strictly greater. -/
def topCategoryStep (totals : CategoryKey → ℚ) (acc : TopCategory) (c : Category) :
    TopCategory :=
  if totals c.id > acc.total then { name := c.name, total := totals c.id } else acc

/-- The `topCategory` reduce of the `summary` memo in `App.tsx`, with its
initial accumulator `{ name: categories[0]?.name ?? 'Financial obligations', total: 0 }`. -/
def topCategory (categories : List Category) : TopCategory :=
  categories.foldl (topCategoryStep (categoryMonthlyTotals categories))
    { name := ((categories.head?).map Category.name).getD "Financial obligations", total := 0 }

/-- The value produced by the `summary` memo in `App.tsx`. -/
structure Summary where
  monthlyCommitments : ℚ
  monthlySavings : ℚ
  monthlyIncome : ℚ
  net : ℚ
  totalTransactions : Nat
  topCategory : TopCategory
deriving DecidableEq

/-- The `summary` memo of `App.tsx`. -/
def summary (categories : List Category) : Summary :=
  let acc := summaryOfCategories categories
  { monthlyCommitments := acc.monthlyCommitments
    monthlySavings := acc.monthlySavings
    monthlyIncome := acc.monthlyIncome
    net := acc.monthlyIncome - acc.monthlyCommitments
    totalTransactions := acc.totalTransactions
    topCategory := topCategory categories }

/-- The value produced by the `yearlyOutlook` memo in `App.tsx`. -/
structure YearlyOutlook where
  income : ℚ
  commitments : ℚ
  savings : ℚ
  net : ℚ
deriving DecidableEq

/-- The `yearlyOutlook` memo of `App.tsx`: each monthly scalar times 12. -/
def yearlyOutlook (categories : List Category) : YearlyOutlook :=
  { income := (summary categories).monthlyIncome * 12
    commitments := (summary categories).monthlyCommitments * 12
    savings := (summary categories).monthlySavings * 12
    net := (summary categories).net * 12 }

/-- C8: each of the four yearly projection scalars equals exactly 12 times the
corresponding monthly scalar of the aggregator — flat linear scaling with no
compounding. -/
theorem yearlyOutlook_twelve_times (categories : List Category) :
    (yearlyOutlook categories).income = 12 * (summary categories).monthlyIncome ∧
    (yearlyOutlook categories).commitments = 12 * (summary categories).monthlyCommitments ∧
    (yearlyOutlook categories).savings = 12 * (summary categories).monthlySavings ∧
    (yearlyOutlook categories).net = 12 * (summary categories).net := by
  refine ⟨?_, ?_, ?_, ?_⟩ <;> simp [yearlyOutlook, mul_comm]

/-- The signed monthly contribution of a single transaction: negative for
Income, positive for Expense and Savings. -/
def signedNormalized (t : Transaction) : ℚ :=
  if t.flow = TransactionFlow.Income then -(normalize t.amount t.cadence)
  else normalize t.amount t.cadence

theorem foldl_categoryTotalStep (ts : List Transaction) :
    ∀ init : ℚ, ts.foldl categoryTotalStep init = init + (ts.map signedNormalized).sum := by
  induction ts with
  | nil => intro init; simp
  | cons t ts ih =>
    intro init
    simp only [List.foldl_cons, List.map_cons, List.sum_cons]
    rw [ih]
    by_cases hf : t.flow = TransactionFlow.Income <;>
      simp [categoryTotalStep, signedNormalized, hf] <;> ring

theorem categoryMonthlyTotal_eq_sum (c : Category) :
    categoryMonthlyTotal c = (c.transactions.map signedNormalized).sum := by
  simpa using foldl_categoryTotalStep c.transactions 0

theorem categoryMonthlyTotals_foldl_of_absent (l : List Category)
    (totals : CategoryKey → ℚ) (k : CategoryKey) (h : ∀ c ∈ l, c.id ≠ k) :
    (l.foldl (fun totals c => fun k' => if k' = c.id then categoryMonthlyTotal c else totals k')
        totals) k = totals k := by
  induction l generalizing totals with
  | nil => rfl
  | cons d l ih =>
    simp only [List.foldl_cons]
    rw [ih _ fun c hc => h c (List.mem_cons_of_mem d hc)]
    have hd : d.id ≠ k := h d (List.mem_cons_self d l)
    exact if_neg fun h' => hd h'.symm

theorem categoryMonthlyTotals_foldl_lookup (l : List Category) :
    ∀ (totals : CategoryKey → ℚ) (c : Category), c ∈ l → (l.map Category.id).Nodup →
      (l.foldl (fun totals c => fun k' => if k' = c.id then categoryMonthlyTotal c else totals k')
          totals) c.id = categoryMonthlyTotal c := by
  induction l with
  | nil => intro _ _ hc; exact absurd hc (List.not_mem_nil _)
  | cons d l ih =>
    intro totals c hc hnd
    simp only [List.map_cons, List.nodup_cons] at hnd
    rcases List.mem_cons.1 hc with rfl | hc
    · simp only [List.foldl_cons]
      have habs : ∀ e ∈ l, e.id ≠ c.id := by
        intro e he heq
        exact hnd.1 (heq ▸ List.mem_map_of_mem Category.id he)
      rw [categoryMonthlyTotals_foldl_of_absent l _ _ habs]
      simp
    · simp only [List.foldl_cons]
      exact ih _ c hc hnd.2

/-- C2: the aggregator's signed monthly total for a listed category is the sum,
over the category's transactions, of the normalized amount — contributed
negatively by Income transactions and positively by Expense and Savings
transactions. -/
theorem categoryMonthlyTotals_signed_sum (categories : List Category) (c : Category)
    (hc : c ∈ categories) (hnd : (categories.map Category.id).Nodup) :
    categoryMonthlyTotals categories c.id =
      (c.transactions.map fun t =>
        if t.flow = TransactionFlow.Income then -(normalize t.amount t.cadence)
        else normalize t.amount t.cadence).sum := by
  rw [categoryMonthlyTotals,
    categoryMonthlyTotals_foldl_lookup categories _ c hc hnd,
    categoryMonthlyTotal_eq_sum]
  rfl

/-- Concrete input for the witness of `categoryMonthlyTotals_signed_sum`. -/
def sampleIncomeCategory : Category :=
  { id := .income
    name := "Income"
    accent := ""
    description := ""
    transactions :=
      [{ id := 0, label := "Pay", amount := 100, cadence := .Monthly, flow := .Income,
         date := some 0, note := "", createdAt := some 0 }] }

theorem categoryMonthlyTotals_signed_sum_witness :
    sampleIncomeCategory ∈ [sampleIncomeCategory] ∧
    ([sampleIncomeCategory].map Category.id).Nodup ∧
    categoryMonthlyTotals [sampleIncomeCategory] sampleIncomeCategory.id =
      (sampleIncomeCategory.transactions.map fun t =>
        if t.flow = TransactionFlow.Income then -(normalize t.amount t.cadence)
        else normalize t.amount t.cadence).sum :=
  ⟨List.mem_singleton_self _, by decide,
    categoryMonthlyTotals_signed_sum _ _ (List.mem_singleton_self _) (by decide)⟩

theorem foldl_summaryStep (ts : List Transaction) :
    ∀ acc : SummaryAcc,
      ts.foldl summaryStep acc =
        { monthlyCommitments := acc.monthlyCommitments +
            ((ts.filter fun t => ¬ t.flow = TransactionFlow.Income).map
              fun t => normalize t.amount t.cadence).sum
          monthlySavings := acc.monthlySavings +
            ((ts.filter fun t => t.flow = TransactionFlow.Savings).map
              fun t => normalize t.amount t.cadence).sum
          monthlyIncome := acc.monthlyIncome +
            ((ts.filter fun t => t.flow = TransactionFlow.Income).map
              fun t => normalize t.amount t.cadence).sum
          totalTransactions := acc.totalTransactions + ts.length } := by
  induction ts with
  | nil => intro acc; simp
  | cons t ts ih =>
    intro acc
    simp only [List.foldl_cons]
    rw [ih]
    cases hf : t.flow <;>
      simp [summaryStep, hf, List.filter_cons] <;>
      (repeat' apply And.intro) <;>
      ring

theorem summaryOfCategories_eq (categories : List Category) :
    summaryOfCategories categories =
      { monthlyCommitments :=
          (((categories.map Category.transactions).flatten.filter
              fun t => ¬ t.flow = TransactionFlow.Income).map
            fun t => normalize t.amount t.cadence).sum
        monthlySavings :=
          (((categories.map Category.transactions).flatten.filter
              fun t => t.flow = TransactionFlow.Savings).map
            fun t => normalize t.amount t.cadence).sum
        monthlyIncome :=
          (((categories.map Category.transactions).flatten.filter
              fun t => t.flow = TransactionFlow.Income).map
            fun t => normalize t.amount t.cadence).sum
        totalTransactions := (categories.map Category.transactions).flatten.length } := by
  suffices h : ∀ (l : List Category) (acc : SummaryAcc),
      l.foldl (fun acc c => c.transactions.foldl summaryStep acc) acc =
        { monthlyCommitments := acc.monthlyCommitments +
            (((l.map Category.transactions).flatten.filter
                fun t => ¬ t.flow = TransactionFlow.Income).map
              fun t => normalize t.amount t.cadence).sum
          monthlySavings := acc.monthlySavings +
            (((l.map Category.transactions).flatten.filter
                fun t => t.flow = TransactionFlow.Savings).map
              fun t => normalize t.amount t.cadence).sum
          monthlyIncome := acc.monthlyIncome +
            (((l.map Category.transactions).flatten.filter
                fun t => t.flow = TransactionFlow.Income).map
              fun t => normalize t.amount t.cadence).sum
          totalTransactions := acc.totalTransactions + (l.map Category.transactions).flatten.length } by
    rw [summaryOfCategories, h]
    simp
  intro l
  induction l with
  | nil => intro acc; simp
  | cons c l ih =>
    intro acc
    simp only [List.foldl_cons]
    rw [foldl_summaryStep, ih]
    simp only [List.map_cons, List.flatten_cons, List.filter_append, List.map_append,
      List.sum_append, List.length_append, SummaryAcc.mk.injEq]
    refine ⟨by ring, by ring, by ring, by omega⟩

theorem flow_not_income_iff (t : Transaction) :
    (¬ t.flow = TransactionFlow.Income) ↔
      (t.flow = TransactionFlow.Expense ∨ t.flow = TransactionFlow.Savings) := by
  cases t.flow <;> simp

/-- C3: the aggregator's global scalars — `monthlyIncome` is the sum of
normalized Income amounts, `monthlyCommitments` the sum of normalized Expense
and Savings amounts (so no Income transaction contributes to it),
`monthlySavings` the sum of normalized Savings amounts only,
`net = monthlyIncome − monthlyCommitments`, and `totalTransactions` the count
of all transactions. -/
theorem summary_scalars_spec (categories : List Category) :
    (summary categories).monthlyIncome =
      (((categories.map Category.transactions).flatten.filter
          fun t => t.flow = TransactionFlow.Income).map
        fun t => normalize t.amount t.cadence).sum ∧
    (summary categories).monthlyCommitments =
      (((categories.map Category.transactions).flatten.filter
          fun t => t.flow = TransactionFlow.Expense ∨ t.flow = TransactionFlow.Savings).map
        fun t => normalize t.amount t.cadence).sum ∧
    (summary categories).monthlySavings =
      (((categories.map Category.transactions).flatten.filter
          fun t => t.flow = TransactionFlow.Savings).map
        fun t => normalize t.amount t.cadence).sum ∧
    (summary categories).net =
      (summary categories).monthlyIncome - (summary categories).monthlyCommitments ∧
    (summary categories).totalTransactions = (categories.map Category.transactions).flatten.length := by
  have hfilter :
      ((categories.map Category.transactions).flatten.filter
          fun t => ¬ t.flow = TransactionFlow.Income) =
        ((categories.map Category.transactions).flatten.filter
          fun t => t.flow = TransactionFlow.Expense ∨ t.flow = TransactionFlow.Savings) := by
    apply List.filter_congr
    intro t _
    simp [flow_not_income_iff t]
  refine ⟨?_, ?_, ?_, ?_, ?_⟩
  · simp [summary, summaryOfCategories_eq]
  · rw [← hfilter]; simp [summary, summaryOfCategories_eq]
  · simp [summary, summaryOfCategories_eq]
  · simp [summary]
  · simp [summary, summaryOfCategories_eq]

theorem topCategory_foldl_total_lt (totals : CategoryKey → ℚ) (M : ℚ) (pre : List Category) :
    ∀ acc : TopCategory, acc.total < M → (∀ d ∈ pre, totals d.id < M) →
      (pre.foldl (topCategoryStep totals) acc).total < M := by
  induction pre with
  | nil => intro acc hacc _; exact hacc
  | cons d pre ih =>
    intro acc hacc hpre
    simp only [List.foldl_cons]
    refine ih _ ?_ fun e he => hpre e (List.mem_cons_of_mem d he)
    rw [topCategoryStep]
    split
    · exact hpre d (List.mem_cons_self d pre)
    · exact hacc

theorem topCategory_foldl_of_le (totals : CategoryKey → ℚ) (post : List Category) :
    ∀ acc : TopCategory, (∀ d ∈ post, totals d.id ≤ acc.total) →
      post.foldl (topCategoryStep totals) acc = acc := by
  induction post with
  | nil => intro _ _; rfl
  | cons d post ih =>
    intro acc hpost
    simp only [List.foldl_cons]
    have hd : ¬ totals d.id > acc.total :=
      not_lt.2 (hpost d (List.mem_cons_self d post))
    rw [topCategoryStep, if_neg hd]
    exact ih acc fun e he => hpost e (List.mem_cons_of_mem d he)

/-- Concrete categories for the C4 counterexample: two categories holding only
Income transactions, so both signed monthly totals are negative. -/
def cexCategoryA : Category :=
  { id := .income, name := "A", accent := "", description := ""
    transactions :=
      [{ id := 0, label := "t", amount := 100, cadence := .Monthly, flow := .Income,
         date := some 0, note := "", createdAt := some 0 }] }

/-- Second category of the C4 counterexample; its signed total `-50` is the
highest in the list, yet the code reports category `A` with total `0`. -/
def cexCategoryB : Category :=
  { id := .miscellaneous, name := "B", accent := "", description := ""
    transactions :=
      [{ id := 1, label := "u", amount := 50, cadence := .Monthly, flow := .Income,
         date := some 0, note := "", createdAt := some 0 }] }

/-- C4 counterexample: with signed totals `A = -100` and `B = -50`, the
category with the highest signed monthly total is `B`, but the reducer's
initial accumulator `{ name: categories[0]?.name, total: 0 }` is never beaten,
so `topCategory` reports `A` with total `0` — neither the right category nor
any category's actual total. -/
theorem topCategory_not_max_counterexample :
    categoryMonthlyTotals [cexCategoryA, cexCategoryB] CategoryKey.income = -100 ∧
    categoryMonthlyTotals [cexCategoryA, cexCategoryB] CategoryKey.miscellaneous = -50 ∧
    categoryMonthlyTotals [cexCategoryA, cexCategoryB] CategoryKey.income <
      categoryMonthlyTotals [cexCategoryA, cexCategoryB] CategoryKey.miscellaneous ∧
    (summary [cexCategoryA, cexCategoryB]).topCategory = { name := "A", total := 0 } := by
  have hne : ¬ CategoryKey.income = CategoryKey.miscellaneous := by decide
  refine ⟨?_, ?_, ?_, ?_⟩ <;>
    norm_num [summary, topCategory, topCategoryStep, categoryMonthlyTotals,
      categoryMonthlyTotal, categoryTotalStep, normalize, cadenceToMonthlyFactor,
      cexCategoryA, cexCategoryB, hne]

/-- C4 as amended: when some category attains a positive signed monthly total,
`topCategory` is the first category attaining the maximum total (every earlier
category is strictly below it, every later one at most it), reported with that
total. When no total is positive the reducer's initial accumulator survives
instead (see the counterexample). -/
theorem topCategory_first_max_of_pos (categories : List Category)
    (pre post : List Category) (c : Category)
    (hsplit : categories = pre ++ c :: post)
    (hpos : 0 < categoryMonthlyTotals categories c.id)
    (hpre : ∀ d ∈ pre,
      categoryMonthlyTotals categories d.id < categoryMonthlyTotals categories c.id)
    (hpost : ∀ d ∈ post,
      categoryMonthlyTotals categories d.id ≤ categoryMonthlyTotals categories c.id) :
    (summary categories).topCategory =
      { name := c.name, total := categoryMonthlyTotals categories c.id } := by
  subst hsplit
  show topCategory (pre ++ c :: post) = _
  rw [topCategory, List.foldl_append, List.foldl_cons]
  have hlt :
      (pre.foldl (topCategoryStep (categoryMonthlyTotals (pre ++ c :: post)))
          { name := (((pre ++ c :: post).head?).map Category.name).getD "Financial obligations",
            total := 0 }).total <
        categoryMonthlyTotals (pre ++ c :: post) c.id :=
    topCategory_foldl_total_lt _ _ pre _ hpos hpre
  rw [topCategoryStep, if_pos hlt]
  exact topCategory_foldl_of_le _ post _ hpost

/-- Concrete input for the witness of `topCategory_first_max_of_pos`. -/
def sampleExpenseCategory : Category :=
  { id := .financialObligations, name := "C", accent := "", description := ""
    transactions :=
      [{ id := 0, label := "r", amount := 10, cadence := .Monthly, flow := .Expense,
         date := some 0, note := "", createdAt := some 0 }] }

theorem topCategory_first_max_of_pos_witness :
    0 < categoryMonthlyTotals [sampleExpenseCategory] sampleExpenseCategory.id ∧
    (summary [sampleExpenseCategory]).topCategory =
      { name := sampleExpenseCategory.name,
        total := categoryMonthlyTotals [sampleExpenseCategory] sampleExpenseCategory.id } :=
  have hf : ¬ TransactionFlow.Expense = TransactionFlow.Income := by decide
  ⟨by norm_num [categoryMonthlyTotals, categoryMonthlyTotal, categoryTotalStep,
      normalize, cadenceToMonthlyFactor, sampleExpenseCategory, hf],
    topCategory_first_max_of_pos [sampleExpenseCategory] [] [] sampleExpenseCategory rfl
      (by norm_num [categoryMonthlyTotals, categoryMonthlyTotal, categoryTotalStep,
        normalize, cadenceToMonthlyFactor, sampleExpenseCategory, hf])
      (by simp) (by simp)⟩

/-- The ids of a category's transactions, in list order. -/
def txIds (c : Category) : List Nat :=
  c.transactions.map Transaction.id

/-- All transaction ids across all categories, in iteration order. -/
def allTransactionIds (l : List Category) : List Nat :=
  (l.map txIds).flatten

theorem allTransactionIds_nil : allTransactionIds [] = [] := rfl

theorem allTransactionIds_cons (c : Category) (l : List Category) :
    allTransactionIds (c :: l) = txIds c ++ allTransactionIds l := by
  simp [allTransactionIds]

/-- The application state `App.tsx` keeps in React hooks: the category list,
the pinned-transaction id list, and (modelling `generateId`) the next fresh
transaction id. -/
structure AppState where
  categories : List Category
  pinnedTransactionIds : List Nat
  nextId : Nat
deriving DecidableEq

/-- The category update shared by `deleteTransaction` and the first phase of
`moveTransaction` in `App.tsx`: in every category with the given id, drop the
transactions with the given transaction id and re-sort by recency. -/
def removeFromCategory (categoryId : CategoryKey) (transactionId : Nat)
    (l : List Category) : List Category :=
  l.map fun c =>
    if c.id = categoryId then
      { c with
        transactions :=
          sortTransactionsByRecency
            (c.transactions.filter fun t => ¬ t.id = transactionId) }
    else c

/-- `deleteTransaction` of `App.tsx`: filter the transaction out of the named
category and out of the pin list. -/
def deleteTransaction (categoryId : CategoryKey) (transactionId : Nat)
    (s : AppState) : AppState :=
  { s with
    categories := removeFromCategory categoryId transactionId s.categories
    pinnedTransactionIds :=
      s.pinnedTransactionIds.filter fun id => ¬ id = transactionId }

/-- The capture of `transactionToMove` inside `moveTransaction`'s filter
callback in `App.tsx`: scanning categories in order, inside each category with
the origin id scanning transactions in order, each match overwrites the
captured value. -/
def findTransactionToMove (fromCategory : CategoryKey) (transactionId : Nat)
    (l : List Category) : Option Transaction :=
  l.foldl
    (fun acc c =>
      if c.id = fromCategory then
        c.transactions.foldl
          (fun acc2 t => if t.id = transactionId then some t else acc2) acc
      else acc)
    none

/-- The `setCategories` updater of `moveTransaction` in `App.tsx`: remove the
transaction from the origin category; if nothing was captured return the state
unchanged, otherwise append the captured transaction to the destination
category and re-sort it. -/
def moveTransactionCategories (fromCategory toCategory : CategoryKey)
    (transactionId : Nat) (l : List Category) : List Category :=
  match findTransactionToMove fromCategory transactionId l with
  | none => l
  | some tx =>
      (removeFromCategory fromCategory transactionId l).map fun c =>
        if c.id = toCategory then
          { c with transactions := sortTransactionsByRecency (c.transactions ++ [tx]) }
        else c

/-- `moveTransaction` of `App.tsx`: an early return leaves the state unchanged
when origin equals destination. -/
def moveTransaction (fromCategory toCategory : CategoryKey) (transactionId : Nat)
    (s : AppState) : AppState :=
  if fromCategory = toCategory then s
  else
    { s with
      categories := moveTransactionCategories fromCategory toCategory transactionId s.categories }

/-- `handleAddTransaction` of `App.tsx`: build a transaction with a fresh id
and the current timestamp, and append it (re-sorting) to the named category. -/
def handleAddTransaction (categoryId : CategoryKey) (label : String) (amount : ℚ)
    (cadence : TransactionCadence) (flow : TransactionFlow) (note : String)
    (date : Option Int) (now : Int) (s : AppState) : AppState :=
  let newTransaction : Transaction :=
    { id := s.nextId, label := label, amount := amount, cadence := cadence,
      flow := flow, date := date, note := note, createdAt := some now }
  { s with
    nextId := s.nextId + 1
    categories :=
      s.categories.map fun c =>
        if c.id = categoryId then
          { c with
            transactions := sortTransactionsByRecency (c.transactions ++ [newTransaction]) }
        else c }

/-- The category traversal of `duplicateTransaction` in `App.tsx`, threading
the id generator: in a category with the given id, find the first transaction
with the target id; when found, append a clone carrying a fresh id and the
current timestamps, and re-sort. -/
def duplicateInCategories (categoryId : CategoryKey) (transactionId : Nat) (now : Int) :
    Nat → List Category → List Category × Nat
  | fresh, [] => ([], fresh)
  | fresh, c :: rest =>
    if c.id = categoryId then
      match c.transactions.find? fun t => t.id = transactionId with
      | none =>
          let r := duplicateInCategories categoryId transactionId now fresh rest
          (c :: r.1, r.2)
      | some target =>
          let clone : Transaction :=
            { target with id := fresh, date := some now, createdAt := some now }
          let r := duplicateInCategories categoryId transactionId now (fresh + 1) rest
          ({ c with transactions := sortTransactionsByRecency (c.transactions ++ [clone]) } :: r.1,
            r.2)
    else
      let r := duplicateInCategories categoryId transactionId now fresh rest
      (c :: r.1, r.2)

/-- `duplicateTransaction` of `App.tsx`. -/
def duplicateTransaction (categoryId : CategoryKey) (transactionId : Nat) (now : Int)
    (s : AppState) : AppState :=
  let r := duplicateInCategories categoryId transactionId now s.nextId s.categories
  { s with categories := r.1, nextId := r.2 }

/-- `togglePinnedTransaction`'s updater in `App.tsx`: remove the id when
present, append it when absent. -/
def togglePinnedIds (transactionId : Nat) (pins : List Nat) : List Nat :=
  if transactionId ∈ pins then pins.filter fun id => ¬ id = transactionId
  else pins ++ [transactionId]

/-- `togglePinnedTransaction` of `App.tsx`. -/
def togglePinnedTransaction (transactionId : Nat) (s : AppState) : AppState :=
  { s with pinnedTransactionIds := togglePinnedIds transactionId s.pinnedTransactionIds }

/-- The `seededTransaction` helper of `App.tsx`, with ids drawn from the model
counter and today's date/timestamp modelled as `0`. -/
def seededTransaction (id : Nat) (label : String) (amount : ℚ)
    (cadence : TransactionCadence) (flow : TransactionFlow) (note : String) :
    Transaction :=
  { id := id, label := label, amount := amount, cadence := cadence, flow := flow,
    date := some 0, note := note, createdAt := some 0 }

/-- The `baseCategories` seed data of `App.tsx`. -/
def baseCategories : List Category :=
  [{ id := .income
     name := "Income"
     accent := "#9ae6b4"
     description := "Your primary paycheck or recurring income stream to anchor the plan."
     transactions :=
       [seededTransaction 0 "Primary paycheck" 3200 .Monthly .Income
          "Lands near the first of each month"] },
   { id := .financialObligations
     name := "Financial obligations"
     accent := "#93c5fd"
     description := "Mortgages, rent, insurance and the must-pay bills that keep life stable."
     transactions :=
       [seededTransaction 1 "Rent" 1850 .Monthly .Expense "Due on the 1st each month",
        seededTransaction 2 "Auto insurance" 165 .Monthly .Expense "Covers both vehicles",
        seededTransaction 3 "Student loan" 220 .Monthly .Expense ""] },
   { id := .lifestyleRecurring
     name := "Recurring"
     accent := "#fbcfe8"
     description := "Subscriptions and routines that make day-to-day life feel good."
     transactions :=
       [seededTransaction 4 "Gym membership" 42 .Monthly .Expense "",
        seededTransaction 5 "Streaming bundle" 28 .Monthly .Expense ""] },
   { id := .personalFamily
     name := "Personal & Lifestyle"
     accent := "#fde68a"
     description := "The flexible spending for people, pets and shared experiences."
     transactions :=
       [seededTransaction 6 "Childcare co-op" 95 .Weekly .Expense "",
        seededTransaction 7 "Family dinner night" 120 .Monthly .Expense ""] },
   { id := .savingsInvestments
     name := "Savings & investments"
     accent := "#a5f3fc"
     description := "Long-term wins such as emergency funds, retirement and brokerage deposits."
     transactions :=
       [seededTransaction 8 "401(k) contribution" 350 .Monthly .Savings "",
        seededTransaction 9 "High-yield savings" 150 .Monthly .Savings ""] },
   { id := .miscellaneous
     name := "Miscellaneous"
     accent := "#ddd6fe"
     description := "Everything else — gifts, experiments, and the unexpected extras."
     transactions :=
       [seededTransaction 10 "Coffee shop budget" 45 .Monthly .Expense ""] }]

/-- The `initialCategories` constant of `App.tsx`: the seed categories with
each transaction list sorted by recency. -/
def initialCategories : List Category :=
  baseCategories.map fun c =>
    { c with transactions := sortTransactionsByRecency c.transactions }

/-- The state of `App.tsx` right after mounting: seeded categories, no pins,
and the id counter past the eleven seeded transactions. -/
def initialAppState : AppState :=
  { categories := initialCategories, pinnedTransactionIds := [], nextId := 11 }

/-- States reachable from the seeded initial state through the
add / move / duplicate / delete handlers of `App.tsx`. -/
inductive Reachable : AppState → Prop where
  | seeded : Reachable initialAppState
  | add {s : AppState} (categoryId : CategoryKey) (label : String) (amount : ℚ)
      (cadence : TransactionCadence) (flow : TransactionFlow) (note : String)
      (date : Option Int) (now : Int) :
      Reachable s →
      Reachable (handleAddTransaction categoryId label amount cadence flow note date now s)
  | move {s : AppState} (fromCategory toCategory : CategoryKey) (transactionId : Nat) :
      Reachable s → Reachable (moveTransaction fromCategory toCategory transactionId s)
  | dup {s : AppState} (categoryId : CategoryKey) (transactionId : Nat) (now : Int) :
      Reachable s → Reachable (duplicateTransaction categoryId transactionId now s)
  | del {s : AppState} (categoryId : CategoryKey) (transactionId : Nat) :
      Reachable s → Reachable (deleteTransaction categoryId transactionId s)

/-- C10: the pin toggle removes the id from the pin set when present and
appends it when absent, leaves every other member's membership unchanged, and
toggling the same id twice restores the original pin set (membership-wise —
the list representation may reorder, but the spec's PinSet has membership-only
semantics). -/
theorem togglePinned_spec (pins : List Nat) (tid : Nat) :
    (tid ∈ pins → ∀ x, x ∈ togglePinnedIds tid pins ↔ x ∈ pins ∧ x ≠ tid) ∧
    (tid ∉ pins → togglePinnedIds tid pins = pins ++ [tid]) ∧
    (∀ x, x ≠ tid → (x ∈ togglePinnedIds tid pins ↔ x ∈ pins)) ∧
    (∀ x, x ∈ togglePinnedIds tid (togglePinnedIds tid pins) ↔ x ∈ pins) := by
  refine ⟨?_, ?_, ?_, ?_⟩
  · intro h x
    simp [togglePinnedIds, h, List.mem_filter]
  · intro h
    simp [togglePinnedIds, h]
  · intro x hx
    by_cases h : tid ∈ pins <;> simp [togglePinnedIds, h, List.mem_filter, hx]
  · intro x
    by_cases h : tid ∈ pins
    · have h2 : tid ∉ pins.filter fun id => ¬ id = tid := by simp
      have hinner : togglePinnedIds tid pins = pins.filter fun id => ¬ id = tid := by
        rw [togglePinnedIds, if_pos h]
      rw [hinner, togglePinnedIds, if_neg h2]
      by_cases hx : x = tid
      · subst hx; simp [h]
      · simp [List.mem_filter, hx]
    · have h2 : tid ∈ pins ++ [tid] := by simp
      have hinner : togglePinnedIds tid pins = pins ++ [tid] := by
        rw [togglePinnedIds, if_neg h]
      rw [hinner, togglePinnedIds, if_pos h2]
      by_cases hx : x = tid
      · subst hx; simp [h]
      · simp [List.mem_filter, hx]

theorem togglePinned_spec_witness :
    ((2 ∈ ([1, 2] : List Nat)) ∧
      ∀ x, x ∈ togglePinnedIds 2 [1, 2] ↔ x ∈ ([1, 2] : List Nat) ∧ x ≠ 2) ∧
    ((3 ∉ ([1, 2] : List Nat)) ∧ togglePinnedIds 3 [1, 2] = [1, 2] ++ [3]) :=
  ⟨⟨by decide, (togglePinned_spec [1, 2] 2).1 (by decide)⟩,
   ⟨by decide, (togglePinned_spec [1, 2] 3).2.1 (by decide)⟩⟩

theorem findInner_eq_or (tid : Nat) (ts : List Transaction) :
    ∀ acc : Option Transaction,
      ts.foldl (fun acc2 t => if t.id = tid then some t else acc2) acc = acc ∨
      ∃ t ∈ ts,
        ts.foldl (fun acc2 t => if t.id = tid then some t else acc2) acc = some t ∧
        t.id = tid := by
  induction ts with
  | nil => intro _; left; rfl
  | cons t ts ih =>
    intro acc
    simp only [List.foldl_cons]
    by_cases h : t.id = tid
    · rw [if_pos h]
      rcases ih (some t) with h1 | ⟨u, hu, h1, h2⟩
      · exact Or.inr ⟨t, List.mem_cons_self t ts, h1, h⟩
      · exact Or.inr ⟨u, List.mem_cons_of_mem t hu, h1, h2⟩
    · rw [if_neg h]
      rcases ih acc with h1 | ⟨u, hu, h1, h2⟩
      · exact Or.inl h1
      · exact Or.inr ⟨u, List.mem_cons_of_mem t hu, h1, h2⟩

theorem findInner_isSome (tid : Nat) (ts : List Transaction) :
    ∀ acc : Option Transaction, (acc ≠ none ∨ ∃ t ∈ ts, t.id = tid) →
      ts.foldl (fun acc2 t => if t.id = tid then some t else acc2) acc ≠ none := by
  induction ts with
  | nil =>
    intro acc h
    rcases h with h | ⟨t, ht, _⟩
    · exact h
    · exact absurd ht (List.not_mem_nil t)
  | cons t ts ih =>
    intro acc h
    simp only [List.foldl_cons]
    by_cases hm : t.id = tid
    · rw [if_pos hm]
      exact ih _ (Or.inl (by simp))
    · rw [if_neg hm]
      apply ih
      rcases h with h | ⟨u, hu, hid⟩
      · exact Or.inl h
      · rcases List.mem_cons.1 hu with rfl | hu
        · exact absurd hid hm
        · exact Or.inr ⟨u, hu, hid⟩

theorem findOuter_eq_or (k : CategoryKey) (tid : Nat) (l : List Category) :
    ∀ acc : Option Transaction,
      l.foldl
          (fun acc c =>
            if c.id = k then
              c.transactions.foldl (fun acc2 t => if t.id = tid then some t else acc2) acc
            else acc)
          acc = acc ∨
      ∃ c ∈ l, c.id = k ∧ ∃ t ∈ c.transactions,
        l.foldl
            (fun acc c =>
              if c.id = k then
                c.transactions.foldl (fun acc2 t => if t.id = tid then some t else acc2) acc
              else acc)
            acc = some t ∧ t.id = tid := by
  induction l with
  | nil => intro _; left; rfl
  | cons c l ih =>
    intro acc
    simp only [List.foldl_cons]
    by_cases hc : c.id = k
    · rw [if_pos hc]
      rcases ih (c.transactions.foldl (fun acc2 t => if t.id = tid then some t else acc2) acc) with
        h1 | ⟨d, hd, hdk, u, hu, h1, h2⟩
      · rcases findInner_eq_or tid c.transactions acc with h3 | ⟨u, hu, h3, h4⟩
        · exact Or.inl (h1.trans h3)
        · exact Or.inr ⟨c, List.mem_cons_self c l, hc, u, hu, h1.trans h3, h4⟩
      · exact Or.inr ⟨d, List.mem_cons_of_mem c hd, hdk, u, hu, h1, h2⟩
    · rw [if_neg hc]
      rcases ih acc with h1 | ⟨d, hd, hdk, u, hu, h1, h2⟩
      · exact Or.inl h1
      · exact Or.inr ⟨d, List.mem_cons_of_mem c hd, hdk, u, hu, h1, h2⟩

theorem findOuter_isSome (k : CategoryKey) (tid : Nat) (l : List Category) :
    ∀ acc : Option Transaction,
      (acc ≠ none ∨ ∃ c ∈ l, c.id = k ∧ ∃ t ∈ c.transactions, t.id = tid) →
      l.foldl
          (fun acc c =>
            if c.id = k then
              c.transactions.foldl (fun acc2 t => if t.id = tid then some t else acc2) acc
            else acc)
          acc ≠ none := by
  induction l with
  | nil =>
    intro acc h
    rcases h with h | ⟨c, hc, _⟩
    · exact h
    · exact absurd hc (List.not_mem_nil c)
  | cons c l ih =>
    intro acc h
    simp only [List.foldl_cons]
    by_cases hc : c.id = k
    · rw [if_pos hc]
      apply ih
      rcases h with h | ⟨d, hd, hdk, u, hu, hid⟩
      · exact Or.inl (findInner_isSome tid c.transactions acc (Or.inl h))
      · rcases List.mem_cons.1 hd with heq | hd
        · exact Or.inl (findInner_isSome tid c.transactions acc (Or.inr ⟨u, heq ▸ hu, hid⟩))
        · exact Or.inr ⟨d, hd, hdk, u, hu, hid⟩
    · rw [if_neg hc]
      apply ih
      rcases h with h | ⟨d, hd, hdk, u, hu, hid⟩
      · exact Or.inl h
      · rcases List.mem_cons.1 hd with heq | hd
        · exact absurd (heq ▸ hdk) hc
        · exact Or.inr ⟨d, hd, hdk, u, hu, hid⟩

theorem findTransactionToMove_eq_some {k : CategoryKey} {tid : Nat} {l : List Category}
    {tx : Transaction} (h : findTransactionToMove k tid l = some tx) :
    tx.id = tid ∧ ∃ c ∈ l, c.id = k ∧ tx ∈ c.transactions := by
  rcases findOuter_eq_or k tid l none with h1 | ⟨c, hc, hck, u, hu, h1, h2⟩
  · rw [findTransactionToMove] at h
    rw [h] at h1
    exact absurd h1 (by simp)
  · rw [findTransactionToMove] at h
    rw [h] at h1
    obtain rfl : tx = u := by injection h1
    exact ⟨h2, c, hc, hck, hu⟩

theorem findTransactionToMove_found {k : CategoryKey} {tid : Nat} {l : List Category}
    (h : ∃ c ∈ l, c.id = k ∧ ∃ t ∈ c.transactions, t.id = tid) :
    ∃ tx, findTransactionToMove k tid l = some tx := by
  have hne := findOuter_isSome k tid l none (Or.inr h)
  rw [← findTransactionToMove] at hne
  cases hres : findTransactionToMove k tid l with
  | none => exact absurd hres hne
  | some tx => exact ⟨tx, rfl⟩

/-- C5: reassigning a transaction with id `tid` from category `A` to a
different category `B` yields a category list in which the category with the
origin id has exactly one transaction fewer, the category with the destination
id has exactly one transaction more, and the very transaction that was in `A`
(same id, same record) is present in the destination; reassigning a
transaction to its own current category leaves the entire state unchanged. -/
theorem moveTransaction_spec (l : List Category) (A B : Category)
    (fromCategory toCategory : CategoryKey) (tid : Nat)
    (hnd : (l.map Category.id).Nodup) (hA : A ∈ l) (hB : B ∈ l)
    (hAid : A.id = fromCategory) (hBid : B.id = toCategory)
    (hne : fromCategory ≠ toCategory)
    (hone : (A.transactions.countP fun t => t.id = tid) = 1) :
    (∃ A' ∈ moveTransactionCategories fromCategory toCategory tid l,
      A'.id = fromCategory ∧ A'.transactions.length + 1 = A.transactions.length) ∧
    (∃ B' ∈ moveTransactionCategories fromCategory toCategory tid l,
      B'.id = toCategory ∧ B'.transactions.length = B.transactions.length + 1 ∧
      ∃ tx ∈ B'.transactions, tx.id = tid ∧ tx ∈ A.transactions) ∧
    (∀ (s : AppState) (k : CategoryKey) (tid' : Nat), moveTransaction k k tid' s = s) := by
  have hmatch : ∃ t ∈ A.transactions, t.id = tid := by
    have : 0 < A.transactions.countP fun t => t.id = tid := hone ▸ Nat.one_pos
    simpa using List.countP_pos_iff.1 this
  obtain ⟨tx, hfind⟩ :=
    @findTransactionToMove_found fromCategory tid l ⟨A, hA, hAid, hmatch⟩
  obtain ⟨htxid, c, hc, hck, htxc⟩ := findTransactionToMove_eq_some hfind
  have hcA : c = A := List.inj_on_of_nodup_map hnd hc hA (hck.trans hAid.symm)
  rw [hcA] at htxc
  have hmove :
      moveTransactionCategories fromCategory toCategory tid l =
        (removeFromCategory fromCategory tid l).map fun c =>
          if c.id = toCategory then
            { c with transactions := sortTransactionsByRecency (c.transactions ++ [tx]) }
          else c := by
    rw [moveTransactionCategories, hfind]
  have hmemA :
      ({ A with transactions :=
          sortTransactionsByRecency (A.transactions.filter fun t => ¬ t.id = tid) } : Category) ∈
        removeFromCategory fromCategory tid l := by
    rw [removeFromCategory]
    exact List.mem_map.2 ⟨A, hA, by simp [hAid]⟩
  have hmemB : B ∈ removeFromCategory fromCategory tid l := by
    rw [removeFromCategory]
    exact List.mem_map.2 ⟨B, hB, by simp [hBid, Ne.symm hne]⟩
  refine ⟨?_, ?_, ?_⟩
  · refine ⟨{ A with transactions :=
        sortTransactionsByRecency (A.transactions.filter fun t => ¬ t.id = tid) }, ?_, hAid, ?_⟩
    · rw [hmove]
      exact List.mem_map.2 ⟨_, hmemA, by simp [hAid, hne]⟩
    · show (sortTransactionsByRecency (A.transactions.filter fun t => ¬ t.id = tid)).length + 1 =
        A.transactions.length
      rw [length_sortTransactionsByRecency]
      have h1 : A.transactions.length =
          (A.transactions.countP fun t => t.id = tid) +
            (A.transactions.countP fun t => ¬ t.id = tid) := by
        rw [List.length_eq_countP_add_countP fun t => decide (t.id = tid)]
        congr 1
        apply List.countP_congr
        intro a _
        simp
      have h2 : (A.transactions.filter fun t => ¬ t.id = tid).length =
          A.transactions.countP fun t => ¬ t.id = tid :=
        (List.countP_eq_length_filter _ _).symm
      omega
  · refine ⟨{ B with transactions := sortTransactionsByRecency (B.transactions ++ [tx]) },
      ?_, hBid, ?_, ?_⟩
    · rw [hmove]
      exact List.mem_map.2 ⟨B, hmemB, by simp [hBid]⟩
    · show (sortTransactionsByRecency (B.transactions ++ [tx])).length =
        B.transactions.length + 1
      rw [length_sortTransactionsByRecency, List.length_append]
      rfl
    · exact ⟨tx, mem_sortTransactionsByRecency.2
        (List.mem_append_right _ (List.mem_singleton_self tx)), htxid, htxc⟩
  · intro s k tid'
    rw [moveTransaction, if_pos rfl]

/-- Origin category for the witness of `moveTransaction_spec`. -/
def sampleMoveA : Category :=
  { id := .income, name := "A", accent := "", description := ""
    transactions :=
      [{ id := 0, label := "t", amount := 5, cadence := .Monthly, flow := .Income,
         date := some 0, note := "", createdAt := some 0 }] }

/-- Destination category for the witness of `moveTransaction_spec`. -/
def sampleMoveB : Category :=
  { id := .miscellaneous, name := "B", accent := "", description := "", transactions := [] }

theorem moveTransaction_spec_witness :
    (([sampleMoveA, sampleMoveB].map Category.id).Nodup ∧
      (sampleMoveA.transactions.countP fun t => t.id = 0) = 1) ∧
    ((∃ A' ∈ moveTransactionCategories CategoryKey.income CategoryKey.miscellaneous 0
          [sampleMoveA, sampleMoveB],
        A'.id = CategoryKey.income ∧
        A'.transactions.length + 1 = sampleMoveA.transactions.length) ∧
      (∃ B' ∈ moveTransactionCategories CategoryKey.income CategoryKey.miscellaneous 0
          [sampleMoveA, sampleMoveB],
        B'.id = CategoryKey.miscellaneous ∧
        B'.transactions.length = sampleMoveB.transactions.length + 1 ∧
        ∃ tx ∈ B'.transactions, tx.id = 0 ∧ tx ∈ sampleMoveA.transactions) ∧
      (∀ (s : AppState) (k : CategoryKey) (tid' : Nat), moveTransaction k k tid' s = s)) :=
  ⟨⟨by decide, by decide⟩,
    moveTransaction_spec [sampleMoveA, sampleMoveB] sampleMoveA sampleMoveB
      CategoryKey.income CategoryKey.miscellaneous 0
      (by decide) (by decide) (by decide) rfl rfl (by decide) (by decide)⟩

theorem count_txIds_sort (a : Nat) (c : Category) (ts : List Transaction) :
    (txIds { c with transactions := sortTransactionsByRecency ts }).count a =
      (ts.map Transaction.id).count a := by
  exact ((sortTransactionsByRecency_perm ts).map Transaction.id).count_eq a

theorem count_map_id_filter_le (a tid : Nat) (ts : List Transaction) :
    ((ts.filter fun t => ¬ t.id = tid).map Transaction.id).count a ≤
      (ts.map Transaction.id).count a :=
  (List.Sublist.map Transaction.id (List.filter_sublist ts)).count_le a

theorem count_map_id_filter_self (tid : Nat) (ts : List Transaction) :
    ((ts.filter fun t => ¬ t.id = tid).map Transaction.id).count tid = 0 := by
  rw [List.count_eq_zero]
  intro hmem
  obtain ⟨t, ht, hid⟩ := List.mem_map.1 hmem
  have := (List.mem_filter.1 ht).2
  simp [hid] at this

theorem map_update_of_id_ne {g : Category → Category} (k : CategoryKey) (l : List Category)
    (h : ∀ c ∈ l, c.id ≠ k) :
    (l.map fun c => if c.id = k then g c else c) = l := by
  conv_rhs => rw [← List.map_id l]
  apply List.map_congr_left
  intro c hc
  simp [h c hc]

theorem map_update_map_id {g : Category → Category} (hg : ∀ c, (g c).id = c.id)
    (k : CategoryKey) (l : List Category) :
    ((l.map fun c => if c.id = k then g c else c).map Category.id) = l.map Category.id := by
  rw [List.map_map]
  apply List.map_congr_left
  intro c _
  by_cases hc : c.id = k
  · simp [hc, hg]
  · simp [hc]

theorem sorted_map_update {g : Category → Category}
    (hg : ∀ c, List.Sorted recencyLE (g c).transactions) (k : CategoryKey)
    (l : List Category) (h : ∀ c ∈ l, List.Sorted recencyLE c.transactions) :
    ∀ c' ∈ (l.map fun c => if c.id = k then g c else c),
      List.Sorted recencyLE c'.transactions := by
  intro c' hc'
  obtain ⟨c, hc, rfl⟩ := List.mem_map.1 hc'
  by_cases hck : c.id = k
  · rw [if_pos hck]; exact hg c
  · rw [if_neg hck]; exact h c hc

theorem count_allIds_map_append (t : Transaction) (k : CategoryKey) :
    ∀ l : List Category, (l.map Category.id).Nodup → ∀ a : Nat,
      (allTransactionIds (l.map fun c =>
          if c.id = k then
            { c with transactions := sortTransactionsByRecency (c.transactions ++ [t]) }
          else c)).count a ≤
        (allTransactionIds l).count a + (if a = t.id then 1 else 0) := by
  intro l
  induction l with
  | nil => intro _ a; simp [allTransactionIds]
  | cons c l ih =>
    intro hnd a
    simp only [List.map_cons, List.nodup_cons] at hnd
    rw [List.map_cons, allTransactionIds_cons, allTransactionIds_cons, List.count_append,
      List.count_append]
    by_cases hck : c.id = k
    · rw [if_pos hck]
      have huntouched :
          (l.map fun c =>
            if c.id = k then
              { c with transactions := sortTransactionsByRecency (c.transactions ++ [t]) }
            else c) = l := by
        apply map_update_of_id_ne
        intro d hd hdk
        apply hnd.1
        have hmem : d.id ∈ List.map Category.id l := List.mem_map_of_mem Category.id hd
        rw [hdk, ← hck] at hmem
        exact hmem
      rw [huntouched, count_txIds_sort, List.map_append, List.count_append]
      have hsingle : (List.map Transaction.id [t]).count a = if a = t.id then 1 else 0 := by
        simp only [List.map_cons, List.map_nil, List.count_singleton]
        by_cases hat : a = t.id
        · simp [hat]
        · simp [hat, Ne.symm hat]
      rw [hsingle]
      have : (txIds c).count a = (List.map Transaction.id c.transactions).count a := rfl
      omega
    · rw [if_neg hck]
      have := ih hnd.2 a
      omega

theorem removeFromCategory_map_id (k : CategoryKey) (tid : Nat) (l : List Category) :
    (removeFromCategory k tid l).map Category.id = l.map Category.id := by
  rw [removeFromCategory]
  exact @map_update_map_id
    (fun c =>
      { c with transactions :=
          sortTransactionsByRecency (c.transactions.filter fun t => ¬ t.id = tid) })
    (fun c => rfl) k l

theorem removeFromCategory_sorted (k : CategoryKey) (tid : Nat) (l : List Category)
    (h : ∀ c ∈ l, List.Sorted recencyLE c.transactions) :
    ∀ c' ∈ removeFromCategory k tid l, List.Sorted recencyLE c'.transactions := by
  rw [removeFromCategory]
  exact @sorted_map_update
    (fun c =>
      { c with transactions :=
          sortTransactionsByRecency (c.transactions.filter fun t => ¬ t.id = tid) })
    (fun c => sorted_sortTransactionsByRecency _) k l h

theorem count_allIds_removeFromCategory (k : CategoryKey) (tid : Nat) :
    ∀ (l : List Category) (a : Nat),
      (allTransactionIds (removeFromCategory k tid l)).count a ≤
        (allTransactionIds l).count a := by
  intro l
  induction l with
  | nil => intro a; simp [removeFromCategory, allTransactionIds]
  | cons c l ih =>
    intro a
    rw [removeFromCategory, List.map_cons, allTransactionIds_cons, allTransactionIds_cons,
      List.count_append, List.count_append, ← removeFromCategory]
    have hta : (txIds (if c.id = k then
        { c with transactions :=
            sortTransactionsByRecency (c.transactions.filter fun t => ¬ t.id = tid) }
        else c)).count a ≤ (txIds c).count a := by
      by_cases hck : c.id = k
      · rw [if_pos hck, count_txIds_sort]
        exact count_map_id_filter_le a tid c.transactions
      · rw [if_neg hck]
    have := ih a
    omega

theorem count_tid_removeFromCategory (k : CategoryKey) (tid : Nat) :
    ∀ (l : List Category) (c₀ : Category), c₀ ∈ l → c₀.id = k → tid ∈ txIds c₀ →
      (allTransactionIds (removeFromCategory k tid l)).count tid + 1 ≤
        (allTransactionIds l).count tid := by
  intro l
  induction l with
  | nil => intro c₀ hc₀; exact absurd hc₀ (List.not_mem_nil c₀)
  | cons c l ih =>
    intro c₀ hc₀ hk hmem
    rw [removeFromCategory, List.map_cons, allTransactionIds_cons, allTransactionIds_cons,
      List.count_append, List.count_append, ← removeFromCategory]
    rcases List.mem_cons.1 hc₀ with heq | hc₀
    · subst heq
      rw [if_pos hk, count_txIds_sort, count_map_id_filter_self]
      have h1 : 0 < (txIds c₀).count tid := List.count_pos_iff.2 hmem
      have h2 := count_allIds_removeFromCategory k tid l tid
      omega
    · have hta : (txIds (if c.id = k then
          { c with transactions :=
              sortTransactionsByRecency (c.transactions.filter fun t => ¬ t.id = tid) }
          else c)).count tid ≤ (txIds c).count tid := by
        by_cases hck : c.id = k
        · rw [if_pos hck, count_txIds_sort]
          exact count_map_id_filter_le tid tid c.transactions
        · rw [if_neg hck]
      have := ih c₀ hc₀ hk hmem
      omega

theorem duplicateInCategories_of_id_ne (k : CategoryKey) (tid : Nat) (now : Int) :
    ∀ (fresh : Nat) (l : List Category), (∀ c ∈ l, c.id ≠ k) →
      duplicateInCategories k tid now fresh l = (l, fresh) := by
  intro fresh l
  induction l generalizing fresh with
  | nil => intro _; rfl
  | cons c l ih =>
    intro h
    rw [duplicateInCategories, if_neg (h c (List.mem_cons_self c l))]
    simp only [ih fresh fun d hd => h d (List.mem_cons_of_mem c hd)]

theorem duplicateInCategories_map_id (k : CategoryKey) (tid : Nat) (now : Int) :
    ∀ (fresh : Nat) (l : List Category),
      ((duplicateInCategories k tid now fresh l).1.map Category.id) =
        l.map Category.id := by
  intro fresh l
  induction l generalizing fresh with
  | nil => rfl
  | cons c l ih =>
    rw [duplicateInCategories]
    by_cases hck : c.id = k
    · rw [if_pos hck]
      cases hfind : c.transactions.find? fun t => t.id = tid with
      | none => simp only [List.map_cons, ih fresh]
      | some target => simp only [List.map_cons, ih (fresh + 1)]
    · rw [if_neg hck]
      simp only [List.map_cons, ih fresh]

theorem duplicateInCategories_sorted (k : CategoryKey) (tid : Nat) (now : Int) :
    ∀ (fresh : Nat) (l : List Category),
      (∀ c ∈ l, List.Sorted recencyLE c.transactions) →
      ∀ c' ∈ (duplicateInCategories k tid now fresh l).1,
        List.Sorted recencyLE c'.transactions := by
  intro fresh l
  induction l generalizing fresh with
  | nil => intro _ c' hc'; exact absurd hc' (List.not_mem_nil c')
  | cons c l ih =>
    intro h c' hc'
    rw [duplicateInCategories] at hc'
    by_cases hck : c.id = k
    · rw [if_pos hck] at hc'
      cases hfind : c.transactions.find? fun t => t.id = tid with
      | none =>
        rw [hfind] at hc'
        rcases List.mem_cons.1 hc' with heq | hc'
        · exact heq ▸ h c (List.mem_cons_self c l)
        · exact ih fresh (fun d hd => h d (List.mem_cons_of_mem c hd)) c' hc'
      | some target =>
        rw [hfind] at hc'
        rcases List.mem_cons.1 hc' with heq | hc'
        · rw [heq]
          exact sorted_sortTransactionsByRecency _
        · exact ih (fresh + 1) (fun d hd => h d (List.mem_cons_of_mem c hd)) c' hc'
    · rw [if_neg hck] at hc'
      rcases List.mem_cons.1 hc' with heq | hc'
      · exact heq ▸ h c (List.mem_cons_self c l)
      · exact ih fresh (fun d hd => h d (List.mem_cons_of_mem c hd)) c' hc'

theorem duplicateInCategories_spec (k : CategoryKey) (tid : Nat) (now : Int)
    (fresh : Nat) (l : List Category) (hnd : (l.map Category.id).Nodup) :
    duplicateInCategories k tid now fresh l = (l, fresh) ∨
    ((duplicateInCategories k tid now fresh l).2 = fresh + 1 ∧
      ∀ a : Nat,
        (allTransactionIds (duplicateInCategories k tid now fresh l).1).count a ≤
          (allTransactionIds l).count a + (if a = fresh then 1 else 0)) := by
  induction l with
  | nil => exact Or.inl rfl
  | cons c l ih =>
    simp only [List.map_cons, List.nodup_cons] at hnd
    by_cases hck : c.id = k
    · have huntouched : ∀ d ∈ l, d.id ≠ k := by
        intro d hd hdk
        apply hnd.1
        have hmem : d.id ∈ List.map Category.id l := List.mem_map_of_mem Category.id hd
        rw [hdk, ← hck] at hmem
        exact hmem
      cases hfind : c.transactions.find? fun t => t.id = tid with
      | none =>
        left
        rw [duplicateInCategories, if_pos hck, hfind]
        simp only [duplicateInCategories_of_id_ne k tid now fresh l huntouched]
      | some target =>
        right
        refine ⟨?_, ?_⟩
        · rw [duplicateInCategories, if_pos hck, hfind]
          simp only [duplicateInCategories_of_id_ne k tid now (fresh + 1) l huntouched]
        intro a
        rw [duplicateInCategories, if_pos hck, hfind]
        simp only [duplicateInCategories_of_id_ne k tid now (fresh + 1) l huntouched]
        rw [allTransactionIds_cons, allTransactionIds_cons, List.count_append,
          List.count_append, count_txIds_sort, List.map_append, List.count_append]
        have hsingle :
            (List.map Transaction.id
              [{ target with id := fresh, date := some now, createdAt := some now }]).count a =
              if a = fresh then 1 else 0 := by
          simp only [List.map_cons, List.map_nil, List.count_singleton]
          by_cases haf : a = fresh
          · simp [haf]
          · simp [haf, Ne.symm haf]
        rw [hsingle]
        have : (txIds c).count a = (List.map Transaction.id c.transactions).count a := rfl
        omega
    · rw [duplicateInCategories, if_neg hck]
      rcases ih hnd.2 with h | ⟨h2, hcount⟩
      · left
        simp only [h]
      · right
        refine ⟨h2, ?_⟩
        intro a
        rw [allTransactionIds_cons, allTransactionIds_cons, List.count_append,
          List.count_append]
        have := hcount a
        omega

/-- The state invariant carried through every handler: category ids are
distinct, transaction ids are globally distinct, every transaction id is below
the id counter, and every category's list is sorted by recency. -/
def StateInv (s : AppState) : Prop :=
  (s.categories.map Category.id).Nodup ∧
  (allTransactionIds s.categories).Nodup ∧
  (∀ a ∈ allTransactionIds s.categories, a < s.nextId) ∧
  (∀ c ∈ s.categories, List.Sorted recencyLE c.transactions)

theorem stateInv_add (categoryId : CategoryKey) (label : String) (amount : ℚ)
    (cadence : TransactionCadence) (flow : TransactionFlow) (note : String)
    (date : Option Int) (now : Int) (s : AppState) (h : StateInv s) :
    StateInv (handleAddTransaction categoryId label amount cadence flow note date now s) := by
  obtain ⟨h1, h2, h3, h4⟩ := h
  have hcnt := count_allIds_map_append
    { id := s.nextId, label := label, amount := amount, cadence := cadence, flow := flow,
      date := date, note := note, createdAt := some now } categoryId s.categories h1
  refine ⟨?_, ?_, ?_, ?_⟩
  · show ((s.categories.map _).map Category.id).Nodup
    rw [@map_update_map_id
      (fun c =>
        { c with transactions :=
            sortTransactionsByRecency (c.transactions ++
              [{ id := s.nextId, label := label, amount := amount, cadence := cadence,
                 flow := flow, date := date, note := note, createdAt := some now }]) })
      (fun c => rfl) categoryId s.categories]
    exact h1
  · rw [List.nodup_iff_count_le_one]
    intro a
    dsimp only [handleAddTransaction]
    have ha := hcnt a
    dsimp only at ha
    by_cases hat : a = s.nextId
    · have h0 : (allTransactionIds s.categories).count a = 0 := by
        rw [List.count_eq_zero]
        intro hmem
        exact absurd (h3 a hmem) (hat ▸ lt_irrefl _)
      rw [if_pos hat] at ha
      omega
    · have hle := List.nodup_iff_count_le_one.1 h2 a
      rw [if_neg hat] at ha
      omega
  · intro a hmem
    dsimp only [handleAddTransaction] at hmem
    show a < s.nextId + 1
    have hpos : 0 < (allTransactionIds
        (s.categories.map fun c =>
          if c.id = categoryId then
            { c with transactions :=
                sortTransactionsByRecency (c.transactions ++
                  [{ id := s.nextId, label := label, amount := amount, cadence := cadence,
                     flow := flow, date := date, note := note,
                     createdAt := some now }]) }
          else c)).count a := List.count_pos_iff.2 hmem
    have ha := hcnt a
    dsimp only at ha
    by_cases hat : a = s.nextId
    · omega
    · rw [if_neg hat] at ha
      have : 0 < (allTransactionIds s.categories).count a := by omega
      exact lt_trans (h3 a (List.count_pos_iff.1 this)) (Nat.lt_succ_self _)
  · exact @sorted_map_update
      (fun c =>
        { c with transactions :=
            sortTransactionsByRecency (c.transactions ++
              [{ id := s.nextId, label := label, amount := amount, cadence := cadence,
                 flow := flow, date := date, note := note, createdAt := some now }]) })
      (fun c => sorted_sortTransactionsByRecency _) categoryId s.categories h4

theorem stateInv_move (fromCategory toCategory : CategoryKey) (tid : Nat) (s : AppState)
    (h : StateInv s) : StateInv (moveTransaction fromCategory toCategory tid s) := by
  obtain ⟨h1, h2, h3, h4⟩ := h
  by_cases heq : fromCategory = toCategory
  · rw [moveTransaction, if_pos heq]
    exact ⟨h1, h2, h3, h4⟩
  · rw [moveTransaction, if_neg heq]
    cases hfind : findTransactionToMove fromCategory tid s.categories with
    | none =>
      have hmc : moveTransactionCategories fromCategory toCategory tid s.categories =
          s.categories := by
        rw [moveTransactionCategories, hfind]
      rw [hmc]
      exact ⟨h1, h2, h3, h4⟩
    | some tx =>
      obtain ⟨htxid, c₀, hc₀, hc₀k, htxc₀⟩ := findTransactionToMove_eq_some hfind
      have htidc₀ : tid ∈ txIds c₀ := by
        rw [← htxid]
        exact List.mem_map_of_mem Transaction.id htxc₀
      have htidold : tid ∈ allTransactionIds s.categories :=
        List.mem_flatten.2 ⟨txIds c₀, List.mem_map_of_mem txIds hc₀, htidc₀⟩
      have hmc : moveTransactionCategories fromCategory toCategory tid s.categories =
          (removeFromCategory fromCategory tid s.categories).map fun c =>
            if c.id = toCategory then
              { c with transactions := sortTransactionsByRecency (c.transactions ++ [tx]) }
            else c := by
        rw [moveTransactionCategories, hfind]
      rw [hmc]
      have hrmid := removeFromCategory_map_id fromCategory tid s.categories
      have hrmnd : ((removeFromCategory fromCategory tid s.categories).map Category.id).Nodup :=
        hrmid ▸ h1
      have hcnt1 := count_allIds_removeFromCategory fromCategory tid s.categories
      have hcnttid :=
        count_tid_removeFromCategory fromCategory tid s.categories c₀ hc₀ hc₀k htidc₀
      have hcnt2 := count_allIds_map_append tx toCategory
        (removeFromCategory fromCategory tid s.categories) hrmnd
      refine ⟨?_, ?_, ?_, ?_⟩
      · show ((_ : List Category).map Category.id).Nodup
        rw [@map_update_map_id
          (fun c =>
            { c with transactions := sortTransactionsByRecency (c.transactions ++ [tx]) })
          (fun c => rfl) toCategory (removeFromCategory fromCategory tid s.categories)]
        exact hrmnd
      · rw [List.nodup_iff_count_le_one]
        intro a
        dsimp only
        have ha2 := hcnt2 a
        have ha1 := hcnt1 a
        have hle := List.nodup_iff_count_le_one.1 h2 a
        by_cases hat : a = tx.id
        · rw [if_pos hat] at ha2
          have hatid : a = tid := hat.trans htxid
          subst hatid
          omega
        · rw [if_neg hat] at ha2
          omega
      · intro a hmem
        dsimp only at hmem
        show a < s.nextId
        have hpos : 0 < _ := List.count_pos_iff.2 hmem
        have ha2 := hcnt2 a
        have ha1 := hcnt1 a
        by_cases hat : a = tx.id
        · have hatid : a = tid := hat.trans htxid
          subst hatid
          exact h3 _ htidold
        · rw [if_neg hat] at ha2
          have : 0 < (allTransactionIds s.categories).count a := by omega
          exact h3 a (List.count_pos_iff.1 this)
      · exact @sorted_map_update
          (fun c =>
            { c with transactions := sortTransactionsByRecency (c.transactions ++ [tx]) })
          (fun c => sorted_sortTransactionsByRecency _) toCategory
          (removeFromCategory fromCategory tid s.categories)
          (removeFromCategory_sorted fromCategory tid s.categories h4)

theorem stateInv_dup (categoryId : CategoryKey) (tid : Nat) (now : Int) (s : AppState)
    (h : StateInv s) : StateInv (duplicateTransaction categoryId tid now s) := by
  obtain ⟨h1, h2, h3, h4⟩ := h
  rcases duplicateInCategories_spec categoryId tid now s.nextId s.categories h1 with
    heq | ⟨hfresh, hcount⟩
  · refine ⟨?_, ?_, ?_, ?_⟩ <;> simp only [duplicateTransaction, heq]
    · exact h1
    · exact h2
    · exact h3
    · exact h4
  · refine ⟨?_, ?_, ?_, ?_⟩
    · show (((duplicateInCategories categoryId tid now s.nextId s.categories).1).map
          Category.id).Nodup
      rw [duplicateInCategories_map_id]
      exact h1
    · show (allTransactionIds
          (duplicateInCategories categoryId tid now s.nextId s.categories).1).Nodup
      rw [List.nodup_iff_count_le_one]
      intro a
      have ha := hcount a
      have hle := List.nodup_iff_count_le_one.1 h2 a
      by_cases hat : a = s.nextId
      · have h0 : (allTransactionIds s.categories).count a = 0 := by
          rw [List.count_eq_zero]
          intro hmem
          exact absurd (h3 a hmem) (hat ▸ lt_irrefl _)
        rw [if_pos hat] at ha
        omega
      · rw [if_neg hat] at ha
        omega
    · intro a hmem
      dsimp only [duplicateTransaction] at hmem
      show a < (duplicateInCategories categoryId tid now s.nextId s.categories).2
      rw [hfresh]
      have hpos : 0 < _ := List.count_pos_iff.2 hmem
      have ha := hcount a
      by_cases hat : a = s.nextId
      · omega
      · rw [if_neg hat] at ha
        have : 0 < (allTransactionIds s.categories).count a := by omega
        exact lt_trans (h3 a (List.count_pos_iff.1 this)) (Nat.lt_succ_self _)
    · exact duplicateInCategories_sorted categoryId tid now s.nextId s.categories h4

theorem stateInv_del (categoryId : CategoryKey) (tid : Nat) (s : AppState)
    (h : StateInv s) : StateInv (deleteTransaction categoryId tid s) := by
  obtain ⟨h1, h2, h3, h4⟩ := h
  refine ⟨?_, ?_, ?_, ?_⟩
  · show ((removeFromCategory categoryId tid s.categories).map Category.id).Nodup
    rw [removeFromCategory_map_id]
    exact h1
  · rw [List.nodup_iff_count_le_one]
    intro a
    dsimp only [deleteTransaction]
    have := count_allIds_removeFromCategory categoryId tid s.categories a
    have hle := List.nodup_iff_count_le_one.1 h2 a
    omega
  · intro a hmem
    dsimp only [deleteTransaction] at hmem
    show a < s.nextId
    have hpos : 0 < _ := List.count_pos_iff.2 hmem
    have := count_allIds_removeFromCategory categoryId tid s.categories a
    have : 0 < (allTransactionIds s.categories).count a := by omega
    exact h3 a (List.count_pos_iff.1 this)
  · exact removeFromCategory_sorted categoryId tid s.categories h4

theorem reachable_stateInv (s : AppState) (hs : Reachable s) : StateInv s := by
  induction hs with
  | seeded =>
    refine ⟨by decide, by decide, by decide, ?_⟩
    intro c hc
    rw [show initialAppState.categories = initialCategories from rfl, initialCategories] at hc
    obtain ⟨b, _, rfl⟩ := List.mem_map.1 hc
    exact sorted_sortTransactionsByRecency _
  | add categoryId label amount cadence flow note date now _ ih =>
    exact stateInv_add categoryId label amount cadence flow note date now _ ih
  | move fromCategory toCategory tid _ ih =>
    exact stateInv_move fromCategory toCategory tid _ ih
  | dup categoryId tid now _ ih =>
    exact stateInv_dup categoryId tid now _ ih
  | del categoryId tid _ ih =>
    exact stateInv_del categoryId tid _ ih

theorem countP_unique_of_nodup :
    ∀ (l : List Category) (tid : Nat), (allTransactionIds l).Nodup →
      tid ∈ allTransactionIds l → (l.countP fun c => tid ∈ txIds c) = 1 := by
  intro l
  induction l with
  | nil =>
    intro tid _ hmem
    rw [allTransactionIds_nil] at hmem
    exact absurd hmem (List.not_mem_nil tid)
  | cons c l ih =>
    intro tid hnd hmem
    rw [allTransactionIds_cons] at hnd hmem
    obtain ⟨n1, n2, ndisj⟩ := List.nodup_append.1 hnd
    rw [List.countP_cons]
    rcases List.mem_append.1 hmem with hin | hin
    · have hz : (l.countP fun c => tid ∈ txIds c) = 0 := by
        rw [List.countP_eq_zero]
        intro d hd hdp
        have hdmem : tid ∈ txIds d := by simpa using hdp
        exact ndisj hin (List.mem_flatten.2 ⟨txIds d, List.mem_map_of_mem txIds hd, hdmem⟩)
      rw [hz, if_pos (by simpa using hin)]
    · have hz : tid ∉ txIds c := fun hc => ndisj hc hin
      rw [ih tid n2 hin, if_neg (by simpa using hz)]

/-- C6: in every state reachable from the seeded initial state through the
add / move / duplicate / delete handlers, every transaction id present
anywhere belongs to exactly one category's list — never zero, never two. -/
theorem reachable_transaction_unique_category (s : AppState) (hs : Reachable s)
    (tid : Nat) (htid : tid ∈ allTransactionIds s.categories) :
    (s.categories.countP fun c => tid ∈ txIds c) = 1 :=
  countP_unique_of_nodup s.categories tid (reachable_stateInv s hs).2.1 htid

theorem reachable_transaction_unique_category_witness :
    0 ∈ allTransactionIds initialAppState.categories ∧
    (initialAppState.categories.countP fun c => 0 ∈ txIds c) = 1 :=
  ⟨by decide,
    reachable_transaction_unique_category initialAppState Reachable.seeded 0 (by decide)⟩

theorem removeFromCategory_idem (k : CategoryKey) (tid : Nat) (l : List Category) :
    removeFromCategory k tid (removeFromCategory k tid l) =
      removeFromCategory k tid l := by
  simp only [removeFromCategory]
  rw [List.map_map]
  apply List.map_congr_left
  intro c _
  dsimp only [Function.comp]
  by_cases hck : c.id = k
  · have hfix : ((sortTransactionsByRecency
        (c.transactions.filter fun t => ¬ t.id = tid)).filter fun t => ¬ t.id = tid) =
          sortTransactionsByRecency (c.transactions.filter fun t => ¬ t.id = tid) := by
      rw [List.filter_eq_self]
      intro t ht
      exact (List.mem_filter.1 (mem_sortTransactionsByRecency.1 ht)).2
    have hss := sortTransactionsByRecency_of_sorted
      (sorted_sortTransactionsByRecency (c.transactions.filter fun t => ¬ t.id = tid))
    simp only [decide_not] at hfix hss
    simp [hck, hfix, hss]
  · simp [hck]

theorem filter_pins_idem (tid : Nat) (pins : List Nat) :
    ((pins.filter fun id => ¬ id = tid).filter fun id => ¬ id = tid) =
      pins.filter fun id => ¬ id = tid := by
  rw [List.filter_eq_self]
  intro a ha
  exact (List.mem_filter.1 ha).2

/-- C7: deleting a transaction removes its id from the named category's list
and from the pin set; deleting an id absent from both is a no-op returning the
state unchanged (not an error); and delete is idempotent. -/
theorem deleteTransaction_spec (s : AppState) (hs : Reachable s)
    (categoryId : CategoryKey) (tid : Nat) :
    (∀ c ∈ (deleteTransaction categoryId tid s).categories,
      c.id = categoryId → tid ∉ txIds c) ∧
    tid ∉ (deleteTransaction categoryId tid s).pinnedTransactionIds ∧
    ((∀ c ∈ s.categories, c.id = categoryId → tid ∉ txIds c) →
      tid ∉ s.pinnedTransactionIds → deleteTransaction categoryId tid s = s) ∧
    deleteTransaction categoryId tid (deleteTransaction categoryId tid s) =
      deleteTransaction categoryId tid s := by
  refine ⟨?_, ?_, ?_, ?_⟩
  · intro c hc hck
    dsimp only [deleteTransaction] at hc
    rw [removeFromCategory] at hc
    obtain ⟨c₀, hc₀, rfl⟩ := List.mem_map.1 hc
    by_cases h0 : c₀.id = categoryId
    · rw [if_pos h0]
      intro hmem
      obtain ⟨t, ht, htid⟩ := List.mem_map.1 hmem
      have ht2 := (List.mem_filter.1 (mem_sortTransactionsByRecency.1 ht)).2
      simp [htid] at ht2
    · rw [if_neg h0] at hck ⊢
      exact absurd hck h0
  · dsimp only [deleteTransaction]
    simp [List.mem_filter]
  · intro habs hpin
    have hsorted := (reachable_stateInv s hs).2.2.2
    have hcat : removeFromCategory categoryId tid s.categories = s.categories := by
      rw [removeFromCategory]
      conv_rhs => rw [← List.map_id s.categories]
      apply List.map_congr_left
      intro c hc
      by_cases hck : c.id = categoryId
      · rw [if_pos hck]
        have hfilter : (c.transactions.filter fun t => ¬ t.id = tid) = c.transactions := by
          rw [List.filter_eq_self]
          intro t ht
          simp only [decide_eq_true_eq]
          intro hteq
          exact habs c hc hck (hteq ▸ List.mem_map_of_mem Transaction.id ht)
        rw [hfilter, sortTransactionsByRecency_of_sorted (hsorted c hc)]
        rfl
      · rw [if_neg hck]
        rfl
    have hpins : (s.pinnedTransactionIds.filter fun id => ¬ id = tid) =
        s.pinnedTransactionIds := by
      rw [List.filter_eq_self]
      intro a ha
      simp only [decide_eq_true_eq]
      intro haeq
      exact hpin (haeq ▸ ha)
    rw [deleteTransaction, hcat, hpins]
  · simp only [deleteTransaction]
    rw [removeFromCategory_idem, filter_pins_idem]

theorem deleteTransaction_spec_witness :
    (∀ c ∈ initialAppState.categories, c.id = CategoryKey.income → 100 ∉ txIds c) ∧
    100 ∉ initialAppState.pinnedTransactionIds ∧
    deleteTransaction CategoryKey.income 100 initialAppState = initialAppState :=
  ⟨by decide, by decide,
    (deleteTransaction_spec initialAppState Reachable.seeded CategoryKey.income 100).2.2.1
      (by decide) (by decide)⟩

/-- The `escapeCell` helper of `downloadCsv` in `App.tsx`: a cell containing a
quote character is wrapped in quotes with its quote characters doubled; a cell
containing a comma or a newline (but no quote) is wrapped in quotes as is; any
other cell is emitted unchanged. -/
def escapeCell (cell : String) : String :=
  if cell.contains '"' then "\"" ++ cell.replace "\"" "\"\"" ++ "\""
  else if cell.contains ',' || cell.contains '\n' then "\"" ++ cell ++ "\""
  else cell

/-- The document built by `downloadCsv` in `App.tsx`: each row's escaped cells
joined by commas, the header row and data rows joined by newlines. `none`
models the early `if (!rows.length) return;` — with zero data rows no document
is produced at all. -/
def downloadCsvContent (headers : List String) (rows : List (List String)) :
    Option String :=
  if rows.isEmpty then none
  else
    some (String.intercalate "\n"
      ((headers :: rows).map fun row => String.intercalate "," (row.map escapeCell)))

/-- C9 counterexample: the claim promises `N + 1` lines for every list of `N`
data rows, but with `N = 0` the export returns early and produces no document
at all (no 1-line header-only file). -/
theorem downloadCsv_empty_rows_counterexample :
    downloadCsvContent ["a"] [] = none := rfl

/-- C9 as amended: for every header row and every non-empty list of `N` data
rows, the export produces the header line followed by the `N` row lines joined
by newlines (`N + 1` newline-separated lines), where cells containing a quote
character are wrapped in quotes with embedded quotes doubled, cells containing
a comma or newline (and no quote, so nothing to double) are wrapped in quotes,
and all other cells are emitted unquoted; with zero rows nothing is produced. -/
theorem downloadCsv_spec (headers : List String) (rows : List (List String))
    (h : rows ≠ []) :
    downloadCsvContent headers rows =
      some (String.intercalate "\n"
        ((headers :: rows).map fun row => String.intercalate "," (row.map escapeCell))) ∧
    ((headers :: rows).map fun row => String.intercalate "," (row.map escapeCell)).length =
      rows.length + 1 ∧
    (∀ cell : String, cell.contains '"' = true →
      escapeCell cell = "\"" ++ cell.replace "\"" "\"\"" ++ "\"") ∧
    (∀ cell : String, cell.contains '"' = false →
      (cell.contains ',' = true ∨ cell.contains '\n' = true) →
      escapeCell cell = "\"" ++ cell ++ "\"") ∧
    (∀ cell : String, cell.contains '"' = false → cell.contains ',' = false →
      cell.contains '\n' = false → escapeCell cell = cell) := by
  refine ⟨?_, ?_, ?_, ?_, ?_⟩
  · rw [downloadCsvContent, if_neg (by simpa using h)]
  · simp
  · intro cell hq
    rw [escapeCell, if_pos hq]
  · intro cell hq hcn
    rw [escapeCell, if_neg (by simp [hq]),
      if_pos (by rcases hcn with h | h <;> simp [h])]
  · intro cell h1 h2 h3
    rw [escapeCell, if_neg (by simp [h1]), if_neg (by simp [h2, h3])]

theorem downloadCsv_spec_witness :
    ([["hi"]] : List (List String)) ≠ [] ∧
    downloadCsvContent ["h"] [["hi"]] =
      some (String.intercalate "\n"
        ((["h"] :: [["hi"]]).map fun row => String.intercalate "," (row.map escapeCell))) ∧
    ((["h"] :: [["hi"]]).map fun row =>
        String.intercalate "," (row.map escapeCell)).length = 1 + 1 :=
  ⟨List.cons_ne_nil _ _,
    (downloadCsv_spec ["h"] [["hi"]] (List.cons_ne_nil _ _)).1,
    (downloadCsv_spec ["h"] [["hi"]] (List.cons_ne_nil _ _)).2.1⟩

end FlowLedger
